import Mathlib

set_option autoImplicit false

namespace Osm

/-- Fixed-point planar location: `x` is longitude*1e7, `y` latitude*1e7
(spec section 3).  The source stores 32-bit ints; all arithmetic performed on
them by the assembler fits comfortably in 64 bits, so `Int` is an exact model. -/
structure Location where
  x : Int
  y : Int
deriving DecidableEq, Repr

/-- Lexicographic strict order on locations: x first, then y.  This is the
order underlying `osmium::Location` comparison used by segment normalization
and sorting. -/
def locLt (a b : Location) : Bool :=
  decide (a.x < b.x) || (a.x == b.x && decide (a.y < b.y))

/-- A node reference: node id plus resolved location (spec section 3). -/
structure NodeRef where
  ref : Int
  loc : Location
deriving DecidableEq, Repr

/-- Object attributes copied into an area by
`Assembler::initialize_area_from_object` (assembler.hpp lines 132-142). -/
structure OsmMeta where
  version : Int
  changeset : Int
  timestamp : Int
  visible : Bool
  uid : Int
  user : String
deriving DecidableEq, Repr

/-- A way: id, ordered node list with resolved locations, tags, attributes. -/
structure OsmWay where
  id : Int
  nodes : List NodeRef
  tags : List (String × String)
  meta : OsmMeta
deriving DecidableEq, Repr

/-- A directed segment between two node refs, remembering the originating way
and the member role string it was extracted under
(`osmium::area::detail::NodeRefSegment`, modelled from spec section 3: the
header is not part of this repository snapshot). -/
structure Seg where
  first : NodeRef
  second : NodeRef
  role : String
  way : OsmWay
deriving DecidableEq, Repr

/-- Modelled from the spec: `NodeRefSegment` construction normalizes the
endpoints so that `first.location <= second.location` lexicographically
(spec section 3; node_ref_segment.hpp is not under src). -/
def mkSeg (a b : NodeRef) (role : String) (w : OsmWay) : Seg :=
  if locLt b.loc a.loc then ⟨b, a, role, w⟩ else ⟨a, b, role, w⟩

/-- `swap_locations()`: flips first and second, keeping way and role
(spec section 4.1). -/
def swapSeg (s : Seg) : Seg :=
  { s with first := s.second, second := s.first }

/-- Modelled from the spec: `NodeRefSegment::operator<` is lexicographic on
`(first.location, second.location)` (spec section 3, invariants after
`sort()`). -/
def segLe (s t : Seg) : Bool :=
  locLt s.first.loc t.first.loc ||
    (s.first.loc == t.first.loc &&
      (locLt s.second.loc t.second.loc || s.second.loc == t.second.loc))

/-- Modelled from the spec: segment equality is by endpoint-location pair,
way and role ignored (spec section 3). -/
def segEqLoc (s t : Seg) : Bool :=
  s.first.loc == t.first.loc && s.second.loc == t.second.loc

/-- Insertion of one element into a sorted list; `le a b = true` means `a`
may stay before `b`. -/
def insOne {α : Type} (le : α → α → Bool) (a : α) : List α → List α
  | [] => [a]
  | b :: t => if le a b then a :: b :: t else b :: insOne le a t

/-- Deterministic comparison sort used to model `std::sort`. -/
def insSort {α : Type} (le : α → α → Bool) : List α → List α
  | [] => []
  | a :: t => insOne le a (insSort le t)

/-- Modelled from the spec: `SegmentList::erase_duplicate_segments()` removes
adjacent equal pairs, both copies (spec section 3; segment_list.hpp is not
under src).  The reporter interface of spec section 4.6 has no method for
this anomaly, so no report is modelled. -/
def eraseDupSegs : List Seg → List Seg
  | a :: b :: t => if segEqLoc a b then eraseDupSegs t else a :: eraseDupSegs (b :: t)
  | l => l

/-- `sort()` followed by `erase_duplicate_segments()` — the first half of
`Assembler::create_rings` normalization (assembler.hpp lines 579-580). -/
def normalizeSegs (l : List Seg) : List Seg :=
  eraseDupSegs (insSort segLe l)

/-- Orientation test: sign of the cross product of the deltas `b - a` and
`c - a` (spec section 4.1). -/
def orient2 (a b c : Location) : Int :=
  (b.x - a.x) * (c.y - a.y) - (b.y - a.y) * (c.x - a.x)

/-- Modelled from the spec: a proper crossing — the two segments' interiors
cross (spec section 4.1, `intersects`).  Both orientation products strictly
negative. -/
def properCross (s t : Seg) : Bool :=
  decide (orient2 s.first.loc s.second.loc t.first.loc *
          orient2 s.first.loc s.second.loc t.second.loc < 0) &&
  decide (orient2 t.first.loc t.second.loc s.first.loc *
          orient2 t.first.loc t.second.loc s.second.loc < 0)

/-- Modelled from the spec: collinear overlap of two normalized segments —
all four endpoints on one line and the lexicographic intervals overlap in
more than a point; touching at a shared endpoint is normal
(spec section 4.1). -/
def collinearOverlap (s t : Seg) : Bool :=
  (orient2 s.first.loc s.second.loc t.first.loc == 0) &&
  (orient2 s.first.loc s.second.loc t.second.loc == 0) &&
  locLt s.first.loc t.second.loc && locLt t.first.loc s.second.loc

/-- A pair of segments is an intersection anomaly iff it is a proper crossing
or a collinear overlap (spec sections 4.1 and 4.2). -/
def segAnomaly (s t : Seg) : Bool :=
  properCross s t || collinearOverlap s t

/-- The structured anomaly records sent to the `ProblemReporter`
(spec section 4.6). -/
inductive Rep where
  | dupNode (id1 id2 : Int) (loc : Location)
  | intersection (a1 a2 b1 b2 : Location)
  | ringNotClosed (front back : Location)
  | roleShouldBeOuter (wayId : Int) (a b : Location)
  | roleShouldBeInner (wayId : Int) (a b : Location)
deriving DecidableEq, Repr

/-- Modelled from the spec: `SegmentList::find_intersections(reporter)` scans
the sorted list; each segment is tested against the subsequent segments whose
minimum x is not beyond its maximum x; every anomalous pair is reported
(spec section 4.2; segment_list.hpp is not under src).  Returns whether any
anomaly was found, together with the reports produced. -/
def findIntersections : List Seg → Bool × List Rep
  | [] => (false, [])
  | a :: rest =>
    let here := (rest.takeWhile (fun b => decide (b.first.loc.x ≤ a.second.loc.x))).filter
      (fun b => segAnomaly a b)
    let (r, reps) := findIntersections rest
    (!here.isEmpty || r,
      here.map (fun b => Rep.intersection a.first.loc a.second.loc b.first.loc b.second.loc)
        ++ reps)

/-- A proto-ring is modelled by its ordered list of directed segments
(`osmium::area::detail::ProtoRing`, spec sections 3 and 4.3; proto_ring.hpp
is not under src, so its operations below are modelled from the spec). -/
abbrev Ring := List Seg

/-- Placeholder node ref returned by front/back accessors on an empty chain;
the assembler never builds an empty proto-ring. -/
def dummyNR : NodeRef := ⟨0, ⟨0, 0⟩⟩

/-- `get_segment_front().first()`: the first node of the chain. -/
def frontNR (r : Ring) : NodeRef :=
  (r.head?.map (·.first)).getD dummyNR

/-- `get_segment_back().second()`: the last node of the chain. -/
def backNR (r : Ring) : NodeRef :=
  (r.getLast?.map (·.second)).getD dummyNR

/-- Modelled from the spec: a ring is closed iff its front node and back node
are co-located (spec section 3). -/
def ringClosed (r : Ring) : Bool :=
  (frontNR r).loc == (backNR r).loc

/-- Modelled from the spec: `ProtoRing::reverse()` reverses the segment order
and swaps each segment's endpoints (spec section 4.3). -/
def reverseRing (r : Ring) : Ring :=
  (r.map swapSeg).reverse

/-- `Assembler::has_same_location` (assembler.hpp lines 116-126): true iff
the two node refs are co-located; a duplicate-node report is produced when
they are co-located but carry different ids.  The report list returned here
holds only the reports of this one comparison. -/
def hasSameLoc (a b : NodeRef) : Bool × List Rep :=
  if a.loc == b.loc then
    (true, if a.ref == b.ref then [] else [Rep.dupNode a.ref b.ref a.loc])
  else (false, [])

/-- `Assembler::has_closed_subring_back` (assembler.hpp lines 335-350):
scan the interior entries (positions 1 through size-2) for a segment whose
`first` is co-located with the just-appended back node `nr`; on a hit,
`split_off_subring(ring, it, it, end)` keeps the prefix before the hit and
splits off the suffix as a new ring pushed to the back of the ring list.
Returns (remaining ring, split-off rings, reports). -/
def hasClosedSubringBack (r : Ring) (nr : NodeRef) : Ring × List Ring × List Rep :=
  if r.length < 3 then (r, [], []) else
  match ((r.enum.drop 1).dropLast).find? (fun p => p.2.first.loc == nr.loc) with
  | none => (r, [], [])
  | some (i, s) =>
    (r.take i, [r.drop i],
      if s.first.ref == nr.ref then [] else [Rep.dupNode nr.ref s.first.ref nr.loc])

/-- `Assembler::has_closed_subring_front` (assembler.hpp lines 352-367):
symmetric scan against each interior segment's `second`; on a hit,
`split_off_subring(ring, it, begin, it+1)` splits off the prefix up to and
including the hit and keeps the suffix. -/
def hasClosedSubringFront (r : Ring) (nr : NodeRef) : Ring × List Ring × List Rep :=
  if r.length < 3 then (r, [], []) else
  match ((r.enum.drop 1).dropLast).find? (fun p => p.2.second.loc == nr.loc) with
  | none => (r, [], [])
  | some (i, s) =>
    (r.drop (i + 1), [r.take (i + 1)],
      if s.second.ref == nr.ref then [] else [Rep.dupNode nr.ref s.second.ref nr.loc])

/-- `Assembler::possibly_combine_rings_back` (assembler.hpp lines 254-281):
walk the other rings in list order, skipping closed ones; merge the first
open ring whose front or back is co-located with this ring's back node.
Returns (merged?, resulting ring, remaining other rings in order, reports). -/
def possCombineBack (r : Ring) : List Ring → Bool × Ring × List Ring × List Rep
  | [] => (false, r, [], [])
  | q :: t =>
    if ringClosed q then
      let (b, r2, t2, reps) := possCombineBack r t
      (b, r2, q :: t2, reps)
    else
      let (m1, reps1) := hasSameLoc (backNR r) (frontNR q)
      if m1 then (true, r ++ q, t, reps1)
      else
        let (m2, reps2) := hasSameLoc (backNR r) (backNR q)
        if m2 then (true, r ++ reverseRing q, t, reps1 ++ reps2)
        else
          let (b, r2, t2, reps) := possCombineBack r t
          (b, r2, q :: t2, reps1 ++ reps2 ++ reps)

/-- `Assembler::possibly_combine_rings_front` (assembler.hpp lines 290-319):
the front-side counterpart; `swap_segments` + `merge_ring` prepends the other
ring, and the `ring.first=it->first` case reverses this ring first. -/
def possCombineFront (r : Ring) : List Ring → Bool × Ring × List Ring × List Rep
  | [] => (false, r, [], [])
  | q :: t =>
    if ringClosed q then
      let (b, r2, t2, reps) := possCombineFront r t
      (b, r2, q :: t2, reps)
    else
      let (m1, reps1) := hasSameLoc (frontNR r) (backNR q)
      if m1 then (true, q ++ r, t, reps1)
      else
        let (m2, reps2) := hasSameLoc (frontNR r) (frontNR q)
        if m2 then (true, reverseRing r ++ q, t, reps1 ++ reps2)
        else
          let (b, r2, t2, reps) := possCombineFront r t
          (b, r2, q :: t2, reps1 ++ reps2 ++ reps)

/-- `Assembler::check_for_closed_subring` (assembler.hpp lines 369-405):
sort a copy of the ring's segments, look for an adjacent pair with co-located
`first` nodes (the comparison reports id mismatches), locate the two segments
in the ring by endpoint-location equality, and split out the range between
the two positions as a new ring. -/
def checkForClosedSubring (r : Ring) : Ring × List Ring × List Rep :=
  let sorted := insSort segLe r
  match (sorted.zip sorted.tail).find? (fun pq => pq.1.first.loc == pq.2.first.loc) with
  | none => (r, [], [])
  | some (s, t) =>
    let reps :=
      if s.first.ref == t.first.ref then [] else [Rep.dupNode s.first.ref t.first.ref s.first.loc]
    let i1 := r.findIdx (fun u => u.first.loc == s.first.loc && u.second.loc == s.second.loc)
    let i2 := r.findIdx (fun u => u.first.loc == t.first.loc && u.second.loc == t.second.loc)
    let a := min i1 i2
    let b := max i1 i2
    (r.take a ++ r.drop b, [(r.drop a).take (b - a)], reps)

/-- `Assembler::combine_rings_back` (assembler.hpp lines 418-427): append the
segment, run the back subring check, then try to merge with another open ring
(scanning the rings before this one first, then the ones after it including
freshly split-off rings); a successful merge re-runs the sort-based subring
check.  Returns the full new ring list in `m_rings` order plus reports. -/
def combineRingsBack (seg : Seg) (before after : List Ring) (r : Ring) :
    List Ring × List Rep :=
  let r0 := r ++ [seg]
  let (r1, splits1, repsA) := hasClosedSubringBack r0 seg.second
  let (f1, rA, before1, repsB) := possCombineBack r1 before
  if f1 then
    let (r2, splits2, repsC) := checkForClosedSubring rA
    (before1 ++ [r2] ++ after ++ splits1 ++ splits2, repsA ++ repsB ++ repsC)
  else
    let (f2, rB, rest1, repsC) := possCombineBack r1 (after ++ splits1)
    if f2 then
      let (r2, splits2, repsD) := checkForClosedSubring rB
      (before ++ [r2] ++ rest1 ++ splits2, repsA ++ repsB ++ repsC ++ repsD)
    else
      (before ++ [r1] ++ after ++ splits1, repsA ++ repsB ++ repsC)

/-- `Assembler::combine_rings_front` (assembler.hpp lines 407-416): the
front-side counterpart of `combineRingsBack`. -/
def combineRingsFront (seg : Seg) (before after : List Ring) (r : Ring) :
    List Ring × List Rep :=
  let r0 := seg :: r
  let (r1, splits1, repsA) := hasClosedSubringFront r0 seg.first
  let (f1, rA, before1, repsB) := possCombineFront r1 before
  if f1 then
    let (r2, splits2, repsC) := checkForClosedSubring rA
    (before1 ++ [r2] ++ after ++ splits1 ++ splits2, repsA ++ repsB ++ repsC)
  else
    let (f2, rB, rest1, repsC) := possCombineFront r1 (after ++ splits1)
    if f2 then
      let (r2, splits2, repsD) := checkForClosedSubring rB
      (before ++ [r2] ++ rest1 ++ splits2, repsA ++ repsB ++ repsC ++ repsD)
    else
      (before ++ [r1] ++ after ++ splits1, repsA ++ repsB ++ repsC)

/-- `Assembler::add_to_existing_ring` (assembler.hpp lines 455-492): walk the
rings in order; closed rings are skipped without any comparison; for each open
ring try the four co-location probes in order and attach at the first match.
Returns `none` when no ring accepts the segment. -/
def addToRings (seg : Seg) (before : List Ring) : List Ring → Option (List Ring × List Rep) × List Rep
  | [] => (none, [])
  | r :: t =>
    if ringClosed r then addToRings seg (before ++ [r]) t
    else
      let (m1, reps1) := hasSameLoc (backNR r) seg.first
      if m1 then (some (combineRingsBack seg before t r), reps1)
      else
        let (m2, reps2) := hasSameLoc (backNR r) seg.second
        if m2 then (some (combineRingsBack (swapSeg seg) before t r), reps1 ++ reps2)
        else
          let (m3, reps3) := hasSameLoc (frontNR r) seg.first
          if m3 then (some (combineRingsFront (swapSeg seg) before t r), reps1 ++ reps2 ++ reps3)
          else
            let (m4, reps4) := hasSameLoc (frontNR r) seg.second
            if m4 then (some (combineRingsFront seg before t r), reps1 ++ reps2 ++ reps3 ++ reps4)
            else
              let (res, reps) := addToRings seg (before ++ [r]) t
              (res, reps1 ++ reps2 ++ reps3 ++ reps4 ++ reps)

/-- One iteration of the segment loop in `Assembler::create_rings`
(assembler.hpp lines 593-603): attach the segment to an existing ring or
start a new single-segment ring at the back of the list. -/
def stitchSeg (rings : List Ring) (seg : Seg) : List Ring × List Rep :=
  match addToRings seg [] rings with
  | (some (rs, reps2), reps1) => (rs, reps1 ++ reps2)
  | (none, reps1) => (rings ++ [[seg]], reps1)

/-- The whole ring-stitching loop over the normalized segment list. -/
def stitchAll (segs : List Seg) (rings0 : List Ring) : List Ring × List Rep :=
  segs.foldl (fun acc seg =>
    ((stitchSeg acc.1 seg).1, acc.2 ++ (stitchSeg acc.1 seg).2)) (rings0, [])

/-- `Assembler::check_for_open_rings` (assembler.hpp lines 232-245): report
every open ring's dangling endpoints; true iff any ring is open. -/
def checkOpenRings (rings : List Ring) : Bool × List Rep :=
  (rings.any (fun r => !ringClosed r),
    (rings.filter (fun r => !ringClosed r)).map
      (fun r => Rep.ringNotClosed (frontNR r).loc (backNR r).loc))

/-- The smaller of two node refs by location (strict comparison, so the
earlier one is kept on ties). -/
def minNR (a b : NodeRef) : NodeRef :=
  if locLt b.loc a.loc then b else a

/-- Modelled from the spec: `ProtoRing::min_node()` is the segment endpoint
with the lexicographically smallest location (spec section 3). -/
def minNode (r : Ring) : NodeRef :=
  r.foldl (fun acc s => minNR (minNR acc s.first) s.second) (frontNR r)

/-- Modelled from the spec: `NodeRefSegment::to_left_of(p)` — the segment's
interior passes strictly to the left of `p` at height `p.y`: neither endpoint
is at `p`, both endpoints are at `x <= p.x`, and the segment strictly
straddles the horizontal line through `p` (spec section 4.1). -/
def toLeftOf (s : Seg) (p : Location) : Bool :=
  !(s.first.loc == p) && !(s.second.loc == p) &&
  decide (s.first.loc.x ≤ p.x) && decide (s.second.loc.x ≤ p.x) &&
  decide (min s.first.loc.y s.second.loc.y < p.y) &&
  decide (p.y < max s.first.loc.y s.second.loc.y)

/-- Modelled from the spec: `ProtoRing::contains(segment)` — the segment is
one of this ring's own segments; ring segments may have been swapped during
stitching, so the endpoint-location pair is matched in either orientation
(spec section 4.3). -/
def ringContains (r : Ring) (s : Seg) : Bool :=
  r.any (fun t =>
    (t.first.loc == s.first.loc && t.second.loc == s.second.loc) ||
    (t.first.loc == s.second.loc && t.second.loc == s.first.loc))

/-- `Assembler::check_inner_outer` (assembler.hpp lines 494-540): scan the
sorted global segment list while `first.x <= min_node.x`, skipping segments
of this ring; count ray crossings via `to_left_of` plus two endpoint-above
checks per segment; the ring is marked inner iff `count + above % 2` is odd.
Returns true iff `set_inner()` is called. -/
def checkInnerOuter (gsegs : List Seg) (r : Ring) : Bool :=
  let mn := minNode r
  let scan := (gsegs.takeWhile (fun s => decide (s.first.loc.x ≤ mn.loc.x))).filter
    (fun s => !ringContains r s)
  let count := (scan.filter (fun s => toLeftOf s mn.loc)).length
  let above := (scan.map (fun s =>
      (if s.first.loc == mn.loc && decide (mn.loc.y < s.second.loc.y) then 1 else 0) +
      (if s.second.loc == mn.loc && decide (mn.loc.y < s.first.loc.y) then 1 else 0))).sum
  (count + above % 2) % 2 == 1

/-- Modelled from the spec: twice the signed shoelace area of the ring
(spec section 3).  For the location-connected closed chains the assembler
builds, the shoelace sum over the vertex sequence equals this per-segment
cross-product sum. -/
def area2 (r : Ring) : Int :=
  (r.map (fun s => s.first.loc.x * s.second.loc.y - s.second.loc.x * s.first.loc.y)).sum

/-- Modelled from the spec: a ring is clockwise iff its signed area is
positive (spec section 3). -/
def isCW (r : Ring) : Bool :=
  decide (0 < area2 r)

/-- Orientation fix applied to outer rings in `create_rings`
(assembler.hpp lines 633-635): reverse unless already clockwise. -/
def orientOuter (r : Ring) : Ring :=
  if isCW r then r else reverseRing r

/-- Orientation fix applied to inner rings in `create_rings`
(assembler.hpp lines 638-640): reverse when clockwise. -/
def orientInner (r : Ring) : Ring :=
  if isCW r then reverseRing r else r

/-- One step of the inner/outer classification loop: mark, orient and file
the ring as inner or outer. -/
def classifyStep (gsegs : List Seg) (acc : List Ring × List Ring) (r : Ring) :
    List Ring × List Ring :=
  if checkInnerOuter gsegs r then (acc.1, acc.2 ++ [orientInner r])
  else (acc.1 ++ [orientOuter r], acc.2)

/-- The inner/outer classification loop of `create_rings`
(assembler.hpp lines 630-643), producing the oriented `m_outer_rings` and
`m_inner_rings` additions in ring order. -/
def classifyRings (gsegs : List Seg) (rings : List Ring) : List Ring × List Ring :=
  rings.foldl (classifyStep gsegs) ([], [])

/-- Modelled from the spec: `ProtoRing::is_in(outer)` — point-in-polygon ray
cast of this ring's `min_node` against the other ring's segments
(spec section 4.3). -/
def isIn (inner outer : Ring) : Bool :=
  ((outer.filter (fun s => toLeftOf s (minNode inner).loc)).length) % 2 == 1

/-- `std::sort(m_outer_rings, a->area() < b->area())`
(assembler.hpp lines 651-653): outer rings by area, smallest first. -/
def sortByArea (outers : List Ring) : List Ring :=
  insSort (fun a b => decide (area2 a < area2 b)) outers

/-- One inner ring scanning the sorted outer rings
(assembler.hpp lines 654-661): attach to the first outer that contains it;
an inner contained in no outer is dropped without any report. -/
def attachOne (i : Ring) : List (Ring × List Ring) → List (Ring × List Ring)
  | [] => []
  | (o, is) :: t => if isIn i o then (o, is ++ [i]) :: t else (o, is) :: attachOne i t

/-- The hole-assignment step of `create_rings`
(assembler.hpp lines 645-662): with exactly one outer ring every inner ring
is attached to it unconditionally; otherwise outer rings are sorted by area
ascending and each inner goes to the first containing outer. -/
def assignHoles (outers inners : List Ring) : List (Ring × List Ring) :=
  match outers with
  | [o] => [(o, inners)]
  | _ => inners.foldl (fun acc i => attachOne i acc) ((sortByArea outers).map (fun o => (o, [])))

/-- `Assembler::check_inner_outer_roles` (assembler.hpp lines 542-573):
count and report segments of outer rings whose role is not "outer" and
segments of inner rings whose role is not "inner". -/
def checkRoles (outers inners : List Ring) : Nat × List Rep :=
  let badOut := (outers.map (fun r => r.filter (fun s => !(s.role == "outer")))).flatten
  let badIn := (inners.map (fun r => r.filter (fun s => !(s.role == "inner")))).flatten
  (badOut.length + badIn.length,
    badOut.map (fun s => Rep.roleShouldBeOuter s.way.id s.first.loc s.second.loc) ++
    badIn.map (fun s => Rep.roleShouldBeInner s.way.id s.first.loc s.second.loc))

/-- The `Assembler` member state (assembler.hpp lines 93-104): the segment
list, the proto-rings, the outer/inner partitions and the role-mismatch
counter.  None of it is cleared between top-level calls. -/
structure AsmState where
  segs : List Seg
  rings : List Ring
  outers : List Ring
  inners : List Ring
  mismatches : Nat
deriving DecidableEq, Repr

/-- The state of a freshly constructed `Assembler`. -/
def initState : AsmState :=
  ⟨[], [], [], [], 0⟩

/-- Result of `Assembler::create_rings`: the updated member state, the
outer rings paired with their attached inner rings when the function returns
true (`none` models returning false), and the problem reports produced. -/
structure CRes where
  state : AsmState
  assigned : Option (List (Ring × List Ring))
  reps : List Rep

/-- `Assembler::create_rings` (assembler.hpp lines 578-668): normalize the
segment list; abort on intersections; stitch rings; abort if any ring is
open; with exactly one ring it becomes outer with no orientation fix;
otherwise classify, orient, and assign holes; finally check roles. -/
def createRings (st : AsmState) : CRes :=
  let s2 := normalizeSegs st.segs
  let fi := findIntersections s2
  if fi.1 then ⟨{ st with segs := s2 }, none, fi.2⟩
  else
    let sa := stitchAll s2 st.rings
    let co := checkOpenRings sa.1
    if co.1 then ⟨{ st with segs := s2, rings := sa.1 }, none, fi.2 ++ sa.2 ++ co.2⟩
    else
      if sa.1.length == 1 then
        let outers2 := st.outers ++ sa.1
        let rr := checkRoles outers2 st.inners
        ⟨{ segs := s2, rings := sa.1, outers := outers2, inners := st.inners,
           mismatches := st.mismatches + rr.1 },
         some (outers2.map (fun o => (o, []))), fi.2 ++ sa.2 ++ co.2 ++ rr.2⟩
      else
        let cl := classifyRings s2 sa.1
        let rings2 := sa.1.map (fun r =>
          if checkInnerOuter s2 r then orientInner r else orientOuter r)
        let outers2 := st.outers ++ cl.1
        let inners2 := st.inners ++ cl.2
        let asg := assignHoles outers2 inners2
        let outers3 := asg.map Prod.fst
        let rr := checkRoles outers3 inners2
        ⟨{ segs := s2, rings := rings2, outers := outers3, inners := inners2,
           mismatches := st.mismatches + rr.1 },
         some asg, fi.2 ++ sa.2 ++ co.2 ++ rr.2⟩

/-- Consecutive node pairs of a way's node list. -/
def consecPairs : List NodeRef → List (NodeRef × NodeRef)
  | a :: b :: t => (a, b) :: consecPairs (b :: t)
  | _ => []

/-- Modelled from the spec: segment extraction from one way
(spec section 4.4 phase 1; segment_list.hpp is not under src): one normalized
segment per consecutive node pair, degenerate segments (equal locations)
discarded. -/
def waySegments (w : OsmWay) (role : String) : List Seg :=
  (consecPairs w.nodes).filterMap (fun p =>
    if p.1.loc == p.2.loc then none else some (mkSeg p.1 p.2 role w))

/-- `ends_have_same_id()` on a way's node list. -/
def endsHaveSameId (w : OsmWay) : Bool :=
  ((w.nodes.head?.map (·.ref)).getD 0) == ((w.nodes.getLast?.map (·.ref)).getD 0)

/-- A relation member: role string plus the member way, which the collector
has fully materialized in the input buffer. -/
structure OsmMember where
  role : String
  way : OsmWay
deriving DecidableEq, Repr

/-- A multipolygon relation with its member ways. -/
structure OsmRelation where
  id : Int
  tags : List (String × String)
  members : List OsmMember
  meta : OsmMeta
deriving DecidableEq, Repr

/-- An emitted ring: the outer ring's node sequence paired with the node
sequences of its attached inner rings (spec section 4.4 phase 9). -/
abbrev EmittedRing := List NodeRef × List (List NodeRef)

/-- The area entity appended to the output buffer. -/
structure Area where
  aid : Int
  meta : OsmMeta
  tags : List (String × String)
  rings : List EmittedRing
deriving DecidableEq, Repr

/-- `Assembler::add_rings_to_area` node sequence for a single ring
(assembler.hpp lines 438-451): the front node followed by every segment's
second node. -/
def ringNodes (r : Ring) : List NodeRef :=
  frontNR r :: r.map (·.second)

/-- Emission of all outer rings with their inner rings
(assembler.hpp lines 433-453). -/
def emitRings (asg : List (Ring × List Ring)) : List EmittedRing :=
  asg.map (fun p => (ringNodes p.1, p.2.map ringNodes))

/-- The keys dropped by the relation-tag filter
(assembler.hpp lines 175-177). -/
def relIgnoredKeys : List String :=
  ["type", "created_by", "source", "note", "test:id", "test:section"]

/-- The relation's tags surviving the `KeyFilter`
(assembler.hpp lines 179-182). -/
def filterRelTags (tags : List (String × String)) : List (String × String) :=
  tags.filter (fun kv => !(relIgnoredKeys.contains kv.1))

/-- Lexicographic order on key/value pairs; this is the iteration order of
the `std::map<std::string, size_t>` counter in `add_common_tags`, whose keys
are `key + '\0' + value`. -/
def pairLe (a b : String × String) : Bool :=
  decide (a.1 < b.1) || (a.1 == b.1 && (decide (a.2 < b.2) || a.2 == b.2))

/-- The distinct ways contributing segments to the given outer rings, in
relation-member order — `ProtoRing::get_ways` collects way pointers into a
`std::set`, whose pointer order is the member order in the input buffer
(assembler.hpp lines 204-207). -/
def outerWays (rel : OsmRelation) (outers : List Ring) : List OsmWay :=
  let used := (outers.flatten).map (·.way)
  ((rel.members.map (·.way)).filter (fun w => used.contains w)).dedup

/-- `Assembler::add_common_tags` (assembler.hpp lines 151-172): count every
key/value occurrence over all the ways' tag lists and keep exactly the
pairs whose occurrence count equals the number of ways, in the counter map's
sorted order. -/
def commonTags (ways : List OsmWay) : List (String × String) :=
  let kvs := (ways.map (·.tags)).flatten
  (insSort pairLe kvs.dedup).filter (fun kv => kvs.count kv == ways.length)

/-- `Assembler::add_tags_to_area` for a relation
(assembler.hpp lines 174-224): if any relation tag survives the filter, copy
all relation tags except `type`; otherwise take the outer ways — one distinct
way gives its tags verbatim, several give the common tags. -/
def relAreaTags (rel : OsmRelation) (outers : List Ring) : List (String × String) :=
  if !(filterRelTags rel.tags).isEmpty then
    rel.tags.filter (fun kv => !(kv.1 == "type"))
  else
    match outerWays rel outers with
    | [w] => w.tags
    | ws => commonTags ws

/-- The keys dropped by the second-pass `KeyFilter`
(assembler.hpp lines 756-758); note that `type` is not among them. -/
def innerIgnoredKeys : List String :=
  ["created_by", "source", "note", "test:id", "test:section"]

/-- A way's tags surviving the second-pass filter. -/
def filterInnerTags (tags : List (String × String)) : List (String × String) :=
  tags.filter (fun kv => !(innerIgnoredKeys.contains kv.1))

/-- `std::equal(fi_begin, fi_end, area_fi_begin)`: the first list is a
pairwise-equal prefix of the second. -/
def listIsPrefixOf (f g : List (String × String)) : Bool :=
  decide (f = g.take f.length)

/-- The member test of the second pass over a relation's members
(assembler.hpp lines 750-772): role "inner", closed way with tags, filtered
tags nonempty and not pairwise equal (with equal count) to the area's
filtered tags; the surrounding `m_inner_outer_mismatches == 0` guard is
included. -/
def secondPassWay (mism : Nat) (role : String) (w : OsmWay)
    (areaTags : List (String × String)) : Bool :=
  mism == 0 && role == "inner" && endsHaveSameId w && decide (0 < w.tags.length) &&
  (let f := filterInnerTags w.tags
   let fa := filterInnerTags areaTags
   decide (0 < f.length) && (!listIsPrefixOf f fa || !(f.length == fa.length)))

/-- `Assembler::operator()(const osmium::Way&, osmium::memory::Buffer&)`
(assembler.hpp lines 685-714): report mismatched end ids, append the way's
segments with role "outer", run `create_rings`, and commit one area — with
tags and rings only when `create_rings` returned true.  Returns the updated
member state, the grown buffer and the reports. -/
def assembleWay (st : AsmState) (w : OsmWay) (buf : List Area) :
    AsmState × List Area × List Rep :=
  let reps0 : List Rep :=
    if endsHaveSameId w then [] else
      [Rep.dupNode ((w.nodes.head?.map (·.ref)).getD 0)
        ((w.nodes.getLast?.map (·.ref)).getD 0)
        ((w.nodes.head?.map (·.loc)).getD dummyNR.loc)]
  let st1 := { st with segs := st.segs ++ waySegments w "outer" }
  let cr := createRings st1
  let area : Area :=
    { aid := 2 * w.id, meta := w.meta,
      tags := match cr.assigned with
        | some _ => w.tags
        | none => []
      rings := match cr.assigned with
        | some asg => emitRings asg
        | none => [] }
  (cr.state, buf ++ [area], reps0 ++ cr.reps)

/-- The member loop of the second pass (assembler.hpp lines 751-776): each
qualifying inner way is assembled by a freshly constructed `Assembler`
(`Assembler assembler(m_config); assembler(way, out_buffer);`). -/
def secondPass (mism : Nat) (members : List OsmMember)
    (areaTags : List (String × String)) (buf : List Area) : List Area × List Rep :=
  match members with
  | [] => (buf, [])
  | m :: t =>
    if secondPassWay mism m.role m.way areaTags then
      ((secondPass mism t areaTags (assembleWay initState m.way buf).2.1).1,
       (assembleWay initState m.way buf).2.2 ++
         (secondPass mism t areaTags (assembleWay initState m.way buf).2.1).2)
    else secondPass mism t areaTags buf

/-- `Assembler::operator()(const osmium::Relation&, ...)`
(assembler.hpp lines 722-778): append all member segments under their member
roles, run `create_rings`, commit one area (tags and rings only on success),
then run the second pass over the members against the committed area's tags
when the role-mismatch counter is zero. -/
def assembleRelation (st : AsmState) (rel : OsmRelation) (buf : List Area) :
    AsmState × List Area × List Rep :=
  let st1 := { st with
    segs := st.segs ++ (rel.members.map (fun m => waySegments m.way m.role)).flatten }
  let cr := createRings st1
  let area : Area :=
    { aid := 2 * rel.id + 1, meta := rel.meta,
      tags := match cr.assigned with
        | some _ => relAreaTags rel cr.state.outers
        | none => []
      rings := match cr.assigned with
        | some asg => emitRings asg
        | none => [] }
  let sp := secondPass cr.state.mismatches rel.members area.tags (buf ++ [area])
  (cr.state, sp.1, cr.reps ++ sp.2)

/-- One element of `VectorBasedSparseMultimap`: an id/value pair
(multimap/vector.hpp lines 840-841), with both `TId` and `TValue` modelled
as integers. -/
abbrev MElem := Int × Int

/-- `VectorBasedSparseMultimap::is_removed` (multimap/vector.hpp lines
849-851): the value equals `osmium::index::empty_value<TValue>()`, passed
here as the parameter `empty` (the definition of `empty_value` lives in
multimap.hpp, outside this snapshot). -/
def mmIsRemoved (empty : Int) (e : MElem) : Bool :=
  e.2 == empty

/-- `std::equal_range` by id over the sorted vector, as used by `get_all`
(multimap/vector.hpp lines 863-871): the elements before the id run, the id
run itself, and the rest. -/
def mmSplit (v : List MElem) (id : Int) : List MElem × List MElem × List MElem :=
  (v.takeWhile (fun e => decide (e.1 < id)),
   ((v.dropWhile (fun e => decide (e.1 < id))).takeWhile (fun e => !decide (id < e.1))),
   ((v.dropWhile (fun e => decide (e.1 < id))).dropWhile (fun e => !decide (id < e.1))))

/-- The loop body of `remove`: overwrite the first element with the sought
value by the hard-coded `0` (multimap/vector.hpp line 908: `it->second = 0`). -/
def mmZeroFirst (val : Int) : List MElem → List MElem
  | [] => []
  | e :: t => if e.2 == val then (e.1, 0) :: t else e :: mmZeroFirst val t

/-- `VectorBasedSparseMultimap::remove(id, value)`
(multimap/vector.hpp lines 904-912): scan the `get_all` range for the first
element whose value matches and overwrite that value with zero. -/
def mmRemove (v : List MElem) (id val : Int) : List MElem :=
  (mmSplit v id).1 ++ mmZeroFirst val (mmSplit v id).2.1 ++ (mmSplit v id).2.2

/-- `VectorBasedSparseMultimap::erase_removed`
(multimap/vector.hpp lines 918-923): physically erase exactly the elements
`is_removed` accepts. -/
def mmEraseRemoved (empty : Int) (v : List MElem) : List MElem :=
  v.filter (fun e => !mmIsRemoved empty e)

/-- The inner-ring test exactly as claim C3 words it: over the segments of
the sorted global list with `first.location.x <= min_node.x` that are not
contained in the ring, count those passing strictly left of `min_node` via
`to_left_of`, add `above mod 2` where `above` counts such segments with one
endpoint co-located with `min_node` and the other endpoint strictly above it,
and test oddness. -/
def claimInnerTest (gsegs : List Seg) (r : Ring) : Bool :=
  let mn := minNode r
  let scan := gsegs.filter (fun s =>
    decide (s.first.loc.x ≤ mn.loc.x) && !ringContains r s)
  let count := (scan.filter (fun s => toLeftOf s mn.loc)).length
  let above := (scan.filter (fun s =>
      (s.first.loc == mn.loc && decide (mn.loc.y < s.second.loc.y)) ||
      (s.second.loc == mn.loc && decide (mn.loc.y < s.first.loc.y)))).length
  (count + above % 2) % 2 == 1

/-- Hole assignment as claim C4 words it for several outer rings: scanning
the area-sorted outer rings in order, each outer ring receives exactly the
inner rings it is the first container of. -/
def specAssignOrd : List Ring → List Ring → List (Ring × List Ring)
  | [], _ => []
  | o :: t, inners =>
    (o, inners.filter (fun i => isIn i o)) ::
      specAssignOrd t (inners.filter (fun i => !isIn i o))

/-- The second-pass member test exactly as claim C7 words it: the way's tags
filtered by the phase-8 key list (`type`, `created_by`, `source`, `note`,
`test:id`, `test:section`) plus the five listed keys — i.e. by
`relIgnoredKeys` — must be nonempty and differ from the area's equally
filtered tags. -/
def claimSecondPassWay (mism : Nat) (role : String) (w : OsmWay)
    (areaTags : List (String × String)) : Bool :=
  mism == 0 && role == "inner" && endsHaveSameId w && decide (0 < w.tags.length) &&
  (let f := filterRelTags w.tags
   decide (0 < f.length) && !(f == filterRelTags areaTags))

/-- Overwriting the value of the first element matching both id and value
with zero — the behaviour claim C9 ascribes to `remove` on a sorted
vector. -/
def mmReplaceFirst : List MElem → Int → Int → List MElem
  | [], _, _ => []
  | e :: t, id, val =>
    if e.1 == id && e.2 == val then (e.1, 0) :: t else e :: mmReplaceFirst t id val

/-- Attribute values shared by all concrete test objects. -/
def m0 : OsmMeta := ⟨1, 1, 0, true, 1, "u"⟩

/-- Shorthand for a concrete node ref. -/
def nr (i x y : Int) : NodeRef := ⟨i, ⟨x, y⟩⟩

/-- A closed square way traversed counter-clockwise in the model's
orientation convention. -/
def sqWay : OsmWay :=
  ⟨77, [nr 1 0 0, nr 2 10 0, nr 3 10 10, nr 4 0 10, nr 1 0 0], [("building", "yes")], m0⟩

/-- An open way: its three nodes do not close a ring. -/
def openWay : OsmWay :=
  ⟨78, [nr 1 0 0, nr 2 10 0, nr 3 10 10], [("building", "yes")], m0⟩

/-- All the segments a relation's members contribute, in member order. -/
def relSegs (rel : OsmRelation) : List Seg :=
  (rel.members.map (fun m => waySegments m.way m.role)).flatten

/-- Outer square of the orphan-inner scenario. -/
def wA : OsmWay :=
  ⟨101, [nr 1 0 0, nr 2 10 0, nr 3 10 10, nr 4 0 10, nr 1 0 0], [], m0⟩

/-- The ring sharing only the corner node 2 with `wA`; its `min_node` lies on
`wA`'s boundary, so it is classified inner by the ray cast but contained in
no outer ring. -/
def wD : OsmWay :=
  ⟨102, [nr 2 10 0, nr 5 20 0, nr 6 20 10, nr 7 15 10, nr 2 10 0], [], m0⟩

/-- A second, smaller outer square far to the right, making the outer-ring
count exceed one. -/
def wE : OsmWay :=
  ⟨103, [nr 8 100 0, nr 9 105 0, nr 10 105 5, nr 11 100 5, nr 8 100 0], [], m0⟩

/-- The orphan-inner relation: two outer squares and one inner ring contained
in neither. -/
def rel5 : OsmRelation :=
  ⟨201, [("landuse", "forest")], [⟨"outer", wA⟩, ⟨"inner", wD⟩, ⟨"outer", wE⟩], m0⟩

/-- The assembler state right after extracting `rel5`'s member segments. -/
def st5 : AsmState := { initState with segs := relSegs rel5 }

/-- First single-segment way of the duplicate-node scenario. -/
def w1 : OsmWay := ⟨301, [nr 1 0 0, nr 2 1 8], [], m0⟩

/-- Second way; its node 8 at (5,5) is co-located with node 7 of `w2`/`w3`. -/
def w4 : OsmWay := ⟨304, [nr 1 0 0, nr 8 5 5], [], m0⟩

/-- Third way, ending at node 7 at (5,5). -/
def w2 : OsmWay := ⟨302, [nr 3 0 9, nr 7 5 5], [], m0⟩

/-- Fourth way, also ending at node 7 at (5,5). -/
def w3 : OsmWay := ⟨303, [nr 2 1 8, nr 7 5 5], [], m0⟩

/-- A relation whose stitching compares the co-located nodes 7 and 8 twice:
once in an attachment probe and once in a subring-detection probe. -/
def rel10 : OsmRelation :=
  ⟨401, [], [⟨"outer", w1⟩, ⟨"outer", w4⟩, ⟨"outer", w2⟩, ⟨"outer", w3⟩], m0⟩

/-- First invocation of one assembler instance on the square way. -/
def c8run1 := assembleWay initState sqWay []

/-- Second invocation of the same instance, reusing the final state of the
first invocation. -/
def c8run2 := assembleWay c8run1.1 sqWay c8run1.2.1

/-- A way carrying a duplicated key/value pair. -/
def cw1 : OsmWay := ⟨501, [nr 1 0 0, nr 2 5 0], [("a", "b"), ("a", "b")], m0⟩

/-- A way carrying the same pair once. -/
def cw2 : OsmWay := ⟨502, [nr 2 5 0, nr 3 5 5], [("a", "b")], m0⟩

/-- An outer-ring list whose segments originate from `cw1` and `cw2`. -/
def outers6 : List Ring :=
  [[⟨nr 1 0 0, nr 2 5 0, "outer", cw1⟩, ⟨nr 2 5 0, nr 3 5 5, "outer", cw2⟩]]

/-- A relation with no surviving tags of its own, forcing the outer-way tag
branches. -/
def rel6 : OsmRelation :=
  ⟨601, [("type", "multipolygon")], [⟨"outer", cw1⟩, ⟨"outer", cw2⟩], m0⟩

/-- A closed, tagged way whose only tag key is `type`. -/
def w7 : OsmWay :=
  ⟨701, [nr 1 0 0, nr 2 5 0, nr 1 0 0], [("type", "boundary")], m0⟩

theorem sum_map_neg {α : Type} (g : α → Int) :
    ∀ l : List α, (l.map (fun x => -(g x))).sum = -((l.map g).sum)
  | [] => by simp
  | a :: t => by simp [sum_map_neg g t]; ring

theorem area2_reverseRing (r : Ring) : area2 (reverseRing r) = -area2 r := by
  simp only [area2, reverseRing, List.map_reverse, List.sum_reverse, List.map_map]
  rw [show ((fun s : Seg => s.first.loc.x * s.second.loc.y - s.second.loc.x * s.first.loc.y) ∘
      swapSeg) = (fun s : Seg =>
        -(s.first.loc.x * s.second.loc.y - s.second.loc.x * s.first.loc.y)) from by
    funext s
    simp only [Function.comp, swapSeg]
    ring]
  exact sum_map_neg _ r

theorem frontNR_reverseRing (r : Ring) : frontNR (reverseRing r) = backNR r := by
  simp only [frontNR, backNR, reverseRing, List.head?_reverse, List.getLast?_map,
    Option.map_map]
  cases r.getLast? <;> simp [swapSeg, Function.comp]

theorem backNR_reverseRing (r : Ring) : backNR (reverseRing r) = frontNR r := by
  simp only [frontNR, backNR, reverseRing, List.getLast?_reverse, List.head?_map,
    Option.map_map]
  cases r.head? <;> simp [swapSeg, Function.comp]

theorem ringClosed_reverseRing (r : Ring) : ringClosed (reverseRing r) = ringClosed r := by
  simp only [ringClosed, frontNR_reverseRing, backNR_reverseRing]
  rw [Bool.eq_iff_iff]
  simp only [beq_iff_eq]
  exact eq_comm

theorem ringClosed_orientOuter (r : Ring) : ringClosed (orientOuter r) = ringClosed r := by
  unfold orientOuter
  split <;> simp [ringClosed_reverseRing]

theorem ringClosed_orientInner (r : Ring) : ringClosed (orientInner r) = ringClosed r := by
  unfold orientInner
  split <;> simp [ringClosed_reverseRing]

theorem isCW_orientOuter (r : Ring) (h : area2 (orientOuter r) ≠ 0) :
    isCW (orientOuter r) = true := by
  cases hcw : isCW r with
  | true => simp [orientOuter, hcw]
  | false =>
    have h1 : ¬ (0 < area2 r) := by simpa [isCW] using hcw
    have he : orientOuter r = reverseRing r := by simp [orientOuter, hcw]
    rw [he] at h ⊢
    rw [show isCW (reverseRing r) = decide (0 < area2 (reverseRing r)) from rfl]
    rw [area2_reverseRing] at h ⊢
    simp only [decide_eq_true_eq]
    omega

theorem isCW_orientInner (r : Ring) (_h : area2 (orientInner r) ≠ 0) :
    isCW (orientInner r) = false := by
  cases hcw : isCW r with
  | true =>
    have h1 : 0 < area2 r := by simpa [isCW] using hcw
    have he : orientInner r = reverseRing r := by simp [orientInner, hcw]
    rw [he]
    rw [show isCW (reverseRing r) = decide (0 < area2 (reverseRing r)) from rfl]
    rw [area2_reverseRing]
    simp only [decide_eq_false_iff_not]
    omega
  | false => simp [orientInner, hcw]

theorem mem_insOne {α : Type} (le : α → α → Bool) (x a : α) :
    ∀ l : List α, (a ∈ insOne le x l ↔ a = x ∨ a ∈ l)
  | [] => by simp [insOne]
  | b :: t => by
    simp only [insOne]
    split
    · simp
    · simp [mem_insOne le x a t]
      tauto

theorem mem_insSort {α : Type} (le : α → α → Bool) (a : α) :
    ∀ l : List α, (a ∈ insSort le l ↔ a ∈ l)
  | [] => by simp [insSort]
  | b :: t => by
    simp [insSort, mem_insOne, mem_insSort le a t]

theorem checkOpenRings_false {rings : List Ring} (h : (checkOpenRings rings).1 = false) :
    ∀ r ∈ rings, ringClosed r = true := by
  simp only [checkOpenRings, List.any_eq_false] at h
  intro r hr
  simpa using h r hr

theorem classify_fold_outer (g : List Seg) :
    ∀ (rs : List Ring) (acc : List Ring × List Ring) (o : Ring),
      o ∈ (rs.foldl (classifyStep g) acc).1 →
      o ∈ acc.1 ∨ ∃ r ∈ rs, o = orientOuter r
  | [], _, o => fun h => Or.inl h
  | r :: t, acc, o => fun h => by
    rcases classify_fold_outer g t (classifyStep g acc r) o h with h1 | ⟨r', hr', he⟩
    · unfold classifyStep at h1
      split at h1
      · exact Or.inl h1
      · rcases List.mem_append.mp h1 with h2 | h2
        · exact Or.inl h2
        · exact Or.inr ⟨r, List.mem_cons_self r t, List.mem_singleton.mp h2⟩
    · exact Or.inr ⟨r', List.mem_cons_of_mem _ hr', he⟩

theorem classify_fold_inner (g : List Seg) :
    ∀ (rs : List Ring) (acc : List Ring × List Ring) (i : Ring),
      i ∈ (rs.foldl (classifyStep g) acc).2 →
      i ∈ acc.2 ∨ ∃ r ∈ rs, i = orientInner r
  | [], _, i => fun h => Or.inl h
  | r :: t, acc, i => fun h => by
    rcases classify_fold_inner g t (classifyStep g acc r) i h with h1 | ⟨r', hr', he⟩
    · unfold classifyStep at h1
      split at h1
      · rcases List.mem_append.mp h1 with h2 | h2
        · exact Or.inl h2
        · exact Or.inr ⟨r, List.mem_cons_self r t, List.mem_singleton.mp h2⟩
      · exact Or.inl h1
    · exact Or.inr ⟨r', List.mem_cons_of_mem _ hr', he⟩

theorem attachOne_fst (i : Ring) :
    ∀ acc : List (Ring × List Ring), (attachOne i acc).map Prod.fst = acc.map Prod.fst
  | [] => rfl
  | (o, is) :: t => by
    unfold attachOne
    split <;> simp [attachOne_fst i t]

theorem attach_fold_fst :
    ∀ (inners : List Ring) (acc : List (Ring × List Ring)),
      (inners.foldl (fun a i => attachOne i a) acc).map Prod.fst = acc.map Prod.fst
  | [], _ => rfl
  | i :: t, acc => by
    simp only [List.foldl_cons]
    rw [attach_fold_fst t (attachOne i acc), attachOne_fst]

theorem attach_fold_nil :
    ∀ inners : List Ring, inners.foldl (fun a i => attachOne i a) [] = []
  | [] => rfl
  | _ :: t => attach_fold_nil t

theorem attach_fold_cons (o : Ring) :
    ∀ (inners is : List Ring) (rest : List (Ring × List Ring)),
      inners.foldl (fun a i => attachOne i a) ((o, is) :: rest) =
        (o, is ++ inners.filter (fun i => isIn i o)) ::
          (inners.filter (fun i => !isIn i o)).foldl (fun a i => attachOne i a) rest
  | [], is, rest => by simp
  | i :: t, is, rest => by
    simp only [List.foldl_cons, attachOne, List.filter_cons]
    cases hin : isIn i o with
    | true =>
      simp only [hin, ite_true, Bool.not_true, Bool.false_eq_true]
      rw [attach_fold_cons o t (is ++ [i]) rest]
      simp
    | false =>
      simp only [hin, Bool.false_eq_true, ite_false, Bool.not_false, ite_true]
      rw [attach_fold_cons o t is (attachOne i rest)]
      simp

theorem attach_fold_eq_spec :
    ∀ (so inners : List Ring),
      inners.foldl (fun a i => attachOne i a) (so.map (fun o => (o, []))) =
        specAssignOrd so inners
  | [], inners => attach_fold_nil inners
  | o :: t, inners => by
    simp only [List.map_cons, specAssignOrd]
    rw [attach_fold_cons o inners [] (t.map (fun o => (o, [])))]
    rw [attach_fold_eq_spec t (inners.filter (fun i => !isIn i o))]
    simp

theorem assignHoles_eq_spec (outers inners : List Ring) (h : outers.length ≠ 1) :
    assignHoles outers inners = specAssignOrd (sortByArea outers) inners := by
  match outers with
  | [] =>
    simp only [assignHoles, sortByArea, insSort, List.map_nil, specAssignOrd]
    exact attach_fold_nil inners
  | [o] => exact absurd rfl h
  | a :: b :: t =>
    show inners.foldl (fun acc i => attachOne i acc)
        ((sortByArea (a :: b :: t)).map (fun o => (o, []))) = _
    exact attach_fold_eq_spec (sortByArea (a :: b :: t)) inners

theorem specAssignOrd_map_fst :
    ∀ so inners : List Ring, (specAssignOrd so inners).map Prod.fst = so
  | [], _ => rfl
  | o :: t, inners => by
    simp only [specAssignOrd, List.map_cons, List.cons.injEq]
    exact ⟨trivial, specAssignOrd_map_fst t _⟩

theorem specAssignOrd_not_mem (i : Ring) :
    ∀ (so inners : List Ring), (∀ o ∈ so, isIn i o = false) →
      ∀ p ∈ specAssignOrd so inners, i ∉ p.2
  | [], inners => by simp [specAssignOrd]
  | o :: t, inners => fun h p hp => by
    simp only [specAssignOrd, List.mem_cons] at hp
    rcases hp with he | hp
    · subst he
      intro hmem
      have := (List.mem_filter.mp hmem).2
      rw [h o (List.mem_cons_self o t)] at this
      exact absurd this (by simp)
    · exact specAssignOrd_not_mem i t _ (fun o' ho' => h o' (List.mem_cons_of_mem _ ho')) p hp

theorem assignHoles_fst_mem {outers inners : List Ring} {o : Ring}
    (h : o ∈ (assignHoles outers inners).map Prod.fst) : o ∈ outers := by
  match outers with
  | [o1] =>
    simp only [assignHoles, List.map_cons, List.map_nil, List.mem_singleton] at h
    simp [h]
  | [] =>
    rw [assignHoles_eq_spec [] inners (by simp), specAssignOrd_map_fst] at h
    simp [sortByArea, insSort] at h
  | a :: b :: t =>
    rw [assignHoles_eq_spec _ inners (by simp), specAssignOrd_map_fst] at h
    exact (mem_insSort _ o _).mp h

/-- C2 (amended): after `create_rings` returns true starting from empty
outer/inner partitions, every ring held by the assembler is closed, and when
more than one ring was stitched every outer ring of nonzero area is clockwise
and every inner ring of nonzero area counter-clockwise.  When exactly one
ring exists it is classified outer but keeps its stitched orientation, which
need not be clockwise (see the counterexample). -/
theorem c2_create_rings_orientation (st0 : AsmState)
    (ho : st0.outers = []) (hi : st0.inners = [])
    (h : (createRings st0).assigned.isSome = true) :
    (∀ r ∈ (createRings st0).state.rings, ringClosed r = true) ∧
    (∀ o ∈ (createRings st0).state.outers, ringClosed o = true) ∧
    (∀ i ∈ (createRings st0).state.inners, ringClosed i = true) ∧
    (1 < (createRings st0).state.rings.length →
      (∀ o ∈ (createRings st0).state.outers, area2 o ≠ 0 → isCW o = true) ∧
      (∀ i ∈ (createRings st0).state.inners, area2 i ≠ 0 → isCW i = false)) := by
  simp only [createRings] at h ⊢
  cases hfi : (findIntersections (normalizeSegs st0.segs)).1 with
  | true => simp [hfi] at h
  | false =>
  cases hop : (checkOpenRings (stitchAll (normalizeSegs st0.segs) st0.rings).1).1 with
  | true => simp [hfi, hop] at h
  | false =>
  have hclosed : ∀ r ∈ (stitchAll (normalizeSegs st0.segs) st0.rings).1, ringClosed r = true :=
    checkOpenRings_false hop
  cases hlen : (stitchAll (normalizeSegs st0.segs) st0.rings).1.length == 1 with
  | true =>
    have hlen1 : (stitchAll (normalizeSegs st0.segs) st0.rings).1.length = 1 := by
      simpa using hlen
    simp only [hfi, hop, hlen, Bool.false_eq_true, ite_false, ite_true, ho, hi,
      List.nil_append] at h ⊢
    refine ⟨hclosed, hclosed, by simp, ?_⟩
    intro hgt
    omega
  | false =>
    simp only [hfi, hop, hlen, Bool.false_eq_true, ite_false, ite_true, ho, hi,
      List.nil_append] at h ⊢
    refine ⟨?_, ?_, ?_, fun _ => ⟨?_, ?_⟩⟩
    · intro r hr
      rcases List.mem_map.mp hr with ⟨r0, hr0, he⟩
      subst he
      split
      · rw [ringClosed_orientInner]
        exact hclosed r0 hr0
      · rw [ringClosed_orientOuter]
        exact hclosed r0 hr0
    · intro o hmo
      have h1 : o ∈ (classifyRings (normalizeSegs st0.segs)
          (stitchAll (normalizeSegs st0.segs) st0.rings).1).1 :=
        assignHoles_fst_mem hmo
      rcases classify_fold_outer _ _ _ _ h1 with h2 | ⟨r, hr, he⟩
      · simp at h2
      · subst he
        rw [ringClosed_orientOuter]
        exact hclosed r hr
    · intro i hmi
      rcases classify_fold_inner _ _ _ _ hmi with h2 | ⟨r, hr, he⟩
      · simp at h2
      · subst he
        rw [ringClosed_orientInner]
        exact hclosed r hr
    · intro o hmo ha
      have h1 : o ∈ (classifyRings (normalizeSegs st0.segs)
          (stitchAll (normalizeSegs st0.segs) st0.rings).1).1 :=
        assignHoles_fst_mem hmo
      rcases classify_fold_outer _ _ _ _ h1 with h2 | ⟨r, hr, he⟩
      · simp at h2
      · subst he
        exact isCW_orientOuter r ha
    · intro i hmi ha
      rcases classify_fold_inner _ _ _ _ hmi with h2 | ⟨r, hr, he⟩
      · simp at h2
      · subst he
        exact isCW_orientInner r ha

/-- C2 counterexample: stitching the closed square way yields exactly one
ring; `create_rings` succeeds, classifies it outer, but the ring is not
clockwise — the single-ring branch of `create_rings` skips the orientation
fix, contradicting the claim's "including the case where exactly one ring
exists". -/
theorem c2_counterexample :
    (createRings { initState with segs := waySegments sqWay "outer" }).assigned.isSome = true ∧
    (createRings { initState with segs := waySegments sqWay "outer" }).state.rings.length = 1 ∧
    (createRings { initState with segs := waySegments sqWay "outer" }).state.outers.map isCW
      = [false] :=
  ⟨by decide, by decide, by decide⟩

/-- C2 witness: on the three-ring relation input the hypotheses of the
amended theorem hold and the orientation postcondition follows by applying
it. -/
theorem c2_witness :
    (st5.outers = [] ∧ st5.inners = [] ∧ (createRings st5).assigned.isSome = true) ∧
    ((∀ r ∈ (createRings st5).state.rings, ringClosed r = true) ∧
     (∀ o ∈ (createRings st5).state.outers, ringClosed o = true) ∧
     (∀ i ∈ (createRings st5).state.inners, ringClosed i = true) ∧
     (1 < (createRings st5).state.rings.length →
       (∀ o ∈ (createRings st5).state.outers, area2 o ≠ 0 → isCW o = true) ∧
       (∀ i ∈ (createRings st5).state.inners, area2 i ≠ 0 → isCW i = false))) :=
  ⟨⟨by decide, by decide, by decide⟩,
    c2_create_rings_orientation st5 (by decide) (by decide) (by decide)⟩

/-- C8 counterexample: invoking the same `Assembler` twice on the square way
neither starts from reset state (the state after the first call differs from
a fresh one) nor reproduces the fresh result (the second call's area differs
from the first call's). -/
theorem c8_counterexample :
    c8run1.1 ≠ initState ∧ c8run2.2.1.getLast? ≠ c8run1.2.1.getLast? :=
  ⟨by decide, by decide⟩

/-- C8 (amended): the `Assembler` state persists across top-level calls —
after the first call the segment list, ring list and outer-ring partition are
all nonempty — and on the square way the second invocation of the same
instance emits an area holding the retained ring twice, where a fresh
assembler emits it once. -/
theorem c8_state_persists :
    c8run1.1.segs ≠ [] ∧ c8run1.1.rings ≠ [] ∧ c8run1.1.outers ≠ [] ∧
    c8run1.2.1.map (fun a => a.rings.length) = [1] ∧
    c8run2.2.1.map (fun a => a.rings.length) = [1, 2] :=
  ⟨by decide, by decide, by decide, by decide, by decide⟩

/-- C10: every co-location comparison goes through `has_same_location`, which
reports a duplicate node exactly when the locations agree and the ids differ;
on the four-way relation the co-located pair 7/8 at (5,5) is reported twice
in one assembly — once by an attachment probe and once by the
subring-detection probe — as the full report list shows. -/
theorem c10_duplicate_node_reports :
    (∀ a b : NodeRef,
      (hasSameLoc a b).1 = (a.loc == b.loc) ∧
      (hasSameLoc a b).2 = (if a.loc = b.loc ∧ a.ref ≠ b.ref
        then [Rep.dupNode a.ref b.ref a.loc] else [])) ∧
    ((assembleRelation initState rel10 []).2.2.filter
      (fun r => r == Rep.dupNode 8 7 ⟨5, 5⟩ || r == Rep.dupNode 7 8 ⟨5, 5⟩)).length = 2 ∧
    (assembleRelation initState rel10 []).2.2 =
      [Rep.dupNode 8 7 ⟨5, 5⟩, Rep.dupNode 7 8 ⟨5, 5⟩, Rep.ringNotClosed ⟨0, 9⟩ ⟨5, 5⟩] := by
  refine ⟨fun a b => ?_, by decide, by decide⟩
  unfold hasSameLoc
  by_cases h1 : a.loc = b.loc
  · by_cases h2 : a.ref = b.ref <;> simp [h1, h2]
  · simp [h1]

/-- C5 counterexample: on the orphan-inner relation, `create_rings` succeeds
with one inner ring contained in no outer ring; the whole assembly produces
an empty report list — no report of any kind is triggered for the orphan —
and the emitted area carries the two outer rings with no inner rings. -/
theorem c5_counterexample :
    (createRings st5).assigned.isSome = true ∧
    (createRings st5).state.outers.length = 2 ∧
    (createRings st5).state.inners.length = 1 ∧
    (∀ o ∈ (createRings st5).state.outers,
      isIn ((createRings st5).state.inners.getD 0 []) o = false) ∧
    (assembleRelation initState rel5 []).2.2 = [] ∧
    (assembleRelation initState rel5 []).2.1.map (fun a => a.rings.map (fun q => q.2))
      = [[[], []]] :=
  ⟨by decide, by decide, by decide, by decide, by decide, by decide⟩

/-- C6 counterexample: with no surviving relation tags and two distinct outer
ways, the pair ("a","b") is present on every outer way, yet the emitted
common-tag list is empty — the occurrence count 3 differs from the way count
2 because `cw1` carries the pair twice. -/
theorem c6_counterexample :
    ("a", "b") ∈ cw1.tags ∧ ("a", "b") ∈ cw2.tags ∧
    filterRelTags rel6.tags = [] ∧
    outerWays rel6 outers6 = [cw1, cw2] ∧
    relAreaTags rel6 outers6 = [] :=
  ⟨by decide, by decide, by decide, by decide, by decide⟩

/-- C7 counterexample: a closed inner-role way whose only tag is
`type=boundary` is recursively assembled by the code (its second-pass filter
does not drop `type`), while the claim's filter — the phase-8 list including
`type` — leaves no tags and predicts no recursion. -/
theorem c7_counterexample :
    secondPassWay 0 "inner" w7 [("name", "x")] = true ∧
    claimSecondPassWay 0 "inner" w7 [("name", "x")] = false :=
  ⟨by decide, by decide⟩

/-- C1 counterexample: the way whose ring stays open makes `create_rings`
abort, yet the output buffer still receives one area entity (with the way's
attributes, no tags and no rings) — contradicting "no area entity is emitted
into the output buffer". -/
theorem c1_counterexample :
    (createRings { initState with segs := waySegments openWay "outer" }).assigned = none ∧
    (assembleWay initState openWay []).2.1.length = 1 ∧
    (assembleWay initState openWay []).2.1.map (fun a => (a.tags, a.rings)) = [([], [])] :=
  ⟨by decide, by decide, by decide⟩

theorem takeWhile_eq_filter_of_sorted {α : Type} (p : α → Bool) (le : α → α → Bool)
    (mono : ∀ a b, le a b = true → p b = true → p a = true) :
    ∀ l : List α, l.Pairwise (fun a b => le a b = true) → l.takeWhile p = l.filter p
  | [], _ => rfl
  | x :: t, hp => by
    have hx := (List.pairwise_cons.mp hp).1
    have ht := (List.pairwise_cons.mp hp).2
    cases hpx : p x with
    | true =>
      simp only [List.takeWhile_cons, List.filter_cons, hpx, ite_true]
      rw [takeWhile_eq_filter_of_sorted p le mono t ht]
    | false =>
      simp only [List.takeWhile_cons, List.filter_cons, hpx, Bool.false_eq_true, ite_false]
      have hnil : t.filter p = [] := by
        rw [List.filter_eq_nil_iff]
        intro a ha hpa
        have := mono x a (hx a ha) hpa
        rw [hpx] at this
        exact absurd this (by simp)
      rw [hnil]

theorem segLe_first_x_le {a b : Seg} (h : segLe a b = true) :
    a.first.loc.x ≤ b.first.loc.x := by
  simp only [segLe, locLt, Bool.or_eq_true, Bool.and_eq_true, decide_eq_true_eq,
    beq_iff_eq] at h
  rcases h with (h1 | ⟨h1, _⟩) | ⟨h1, _⟩
  · omega
  · omega
  · rw [h1]

theorem sum_two_indicators {α : Type} (p q : α → Bool)
    (hdisj : ∀ s, ¬(p s = true ∧ q s = true)) :
    ∀ l : List α,
      (l.map (fun s => (if p s then 1 else 0) + (if q s then 1 else 0))).sum
        = (l.filter (fun s => p s || q s)).length
  | [] => rfl
  | a :: l => by
    simp only [List.map_cons, List.sum_cons, List.filter_cons]
    rw [sum_two_indicators p q hdisj l]
    cases hpa : p a with
    | true =>
      cases hqa : q a with
      | true => exact absurd ⟨hpa, hqa⟩ (hdisj a)
      | false =>
        simp [hpa, hqa]
        omega
    | false =>
      cases hqa : q a with
      | true =>
        simp [hpa, hqa]
        omega
      | false => simp [hpa, hqa]

/-- C3: on a sorted global segment list, `check_inner_outer` marks a ring
inner exactly when the claim's count — segments with `first.x <= min_node.x`
outside the ring passing strictly left of `min_node` via `to_left_of`, plus
`above mod 2` for segments with an endpoint co-located with `min_node` and
the other endpoint strictly above — is odd.  The loop's early exit at the
first segment with `first.x > min_node.x` visits exactly the claim's segment
set because the list is sorted. -/
theorem c3_inner_classification (gsegs : List Seg) (r : Ring)
    (hs : gsegs.Pairwise (fun a b => segLe a b = true)) :
    checkInnerOuter gsegs r = claimInnerTest gsegs r := by
  unfold checkInnerOuter claimInnerTest
  dsimp only
  have hscan : (gsegs.takeWhile (fun s => decide (s.first.loc.x ≤ (minNode r).loc.x))).filter
      (fun s => !ringContains r s)
      = gsegs.filter
        (fun s => decide (s.first.loc.x ≤ (minNode r).loc.x) && !ringContains r s) := by
    rw [takeWhile_eq_filter_of_sorted (fun s => decide (s.first.loc.x ≤ (minNode r).loc.x))
      segLe (fun a b hab hpb => by
        have := segLe_first_x_le hab
        simp only [decide_eq_true_eq] at hpb ⊢
        omega) gsegs hs]
    rw [List.filter_filter]
    exact List.filter_congr (fun a _ => Bool.and_comm _ _)
  rw [hscan]
  have hcongr : ∀ c a1 a2 : Nat, a1 = a2 →
      ((c + a1 % 2) % 2 == 1) = ((c + a2 % 2) % 2 == 1) := by
    intro c a1 a2 h
    rw [h]
  apply hcongr
  exact sum_two_indicators
    (fun s : Seg => s.first.loc == (minNode r).loc && decide ((minNode r).loc.y < s.second.loc.y))
    (fun s : Seg => s.second.loc == (minNode r).loc && decide ((minNode r).loc.y < s.first.loc.y))
    (fun s : Seg => by
      rintro ⟨hp, hq⟩
      simp only [Bool.and_eq_true, beq_iff_eq, decide_eq_true_eq] at hp hq
      have h1 : s.first.loc.y = (minNode r).loc.y := by rw [hp.1]
      have h2 := hq.2
      omega) _

/-- C3 witness: the sortedness hypothesis holds for the normalized segment
list of the orphan-inner relation, and the classification of its second
stitched ring agrees with the claim's formula there. -/
theorem c3_witness :
    (normalizeSegs (relSegs rel5)).Pairwise (fun a b => segLe a b = true) ∧
    checkInnerOuter (normalizeSegs (relSegs rel5)) ((createRings st5).state.rings.getD 1 [])
      = claimInnerTest (normalizeSegs (relSegs rel5)) ((createRings st5).state.rings.getD 1 []) :=
  ⟨by decide, c3_inner_classification _ _ (by decide)⟩

/-- C4: hole assignment — with exactly one outer ring every inner ring is
attached to it unconditionally; with any other outer count the outer rings
are sorted by area ascending and each inner ring goes to the first outer ring
in that order that contains its `min_node` (`specAssignOrd` scans the sorted
outers in order, attaching each inner at its first container). -/
theorem c4_hole_assignment (o : Ring) (outers inners : List Ring) :
    assignHoles [o] inners = [(o, inners)] ∧
    (outers.length ≠ 1 →
      assignHoles outers inners = specAssignOrd (sortByArea outers) inners) :=
  ⟨rfl, fun h => assignHoles_eq_spec outers inners h⟩

/-- C4 witness: applied to the two outer rings and one inner ring of the
orphan-inner relation. -/
theorem c4_witness :
    (createRings st5).state.outers.length ≠ 1 ∧
    assignHoles (createRings st5).state.outers (createRings st5).state.inners
      = specAssignOrd (sortByArea (createRings st5).state.outers)
          (createRings st5).state.inners :=
  ⟨by decide,
    (c4_hole_assignment [] (createRings st5).state.outers (createRings st5).state.inners).2
      (by decide)⟩

/-- C5 (amended): when `create_rings` succeeds with more than one outer ring,
an inner ring contained in no outer ring is attached to none of them — it is
silently dropped from the emitted area, assembly continues, and no report is
sent (the hole-assignment code has no report call; see the counterexample for
the empty report list). -/
theorem c5_orphan_inner_dropped (st0 : AsmState) (i : Ring)
    (h : (createRings st0).assigned.isSome = true)
    (hmulti : 2 ≤ ((createRings st0).assigned.getD []).length)
    (hnone : ∀ o ∈ ((createRings st0).assigned.getD []).map Prod.fst, isIn i o = false) :
    ∀ p ∈ (createRings st0).assigned.getD [], i ∉ p.2 := by
  simp only [createRings] at h hmulti hnone ⊢
  cases hfi : (findIntersections (normalizeSegs st0.segs)).1 with
  | true => simp [hfi] at h
  | false =>
  cases hop : (checkOpenRings (stitchAll (normalizeSegs st0.segs) st0.rings).1).1 with
  | true => simp [hfi, hop] at h
  | false =>
  cases hlen : (stitchAll (normalizeSegs st0.segs) st0.rings).1.length == 1 with
  | true =>
    simp only [hfi, hop, hlen, Bool.false_eq_true, ite_false, ite_true,
      Option.getD_some] at hmulti hnone ⊢
    intro p hp
    rcases List.mem_map.mp hp with ⟨o, _, he⟩
    subst he
    simp
  | false =>
    simp only [hfi, hop, hlen, Bool.false_eq_true, ite_false, ite_true,
      Option.getD_some] at hmulti hnone ⊢
    by_cases hlen1 : (st0.outers ++
        (classifyRings (normalizeSegs st0.segs)
          (stitchAll (normalizeSegs st0.segs) st0.rings).1).1).length = 1
    · rcases List.length_eq_one.mp hlen1 with ⟨o1, ho1⟩
      rw [ho1] at hmulti
      simp [assignHoles] at hmulti
    · rw [assignHoles_eq_spec _ _ hlen1] at hnone ⊢
      rw [specAssignOrd_map_fst] at hnone
      exact specAssignOrd_not_mem i _ _ hnone

/-- C5 witness: the amended statement applied to the orphan-inner relation
and its (unique) inner ring. -/
theorem c5_witness :
    ((createRings st5).assigned.isSome = true ∧
     2 ≤ ((createRings st5).assigned.getD []).length ∧
     (∀ o ∈ ((createRings st5).assigned.getD []).map Prod.fst,
        isIn ((createRings st5).state.inners.getD 0 []) o = false)) ∧
    (∀ p ∈ (createRings st5).assigned.getD [],
      ((createRings st5).state.inners.getD 0 []) ∉ p.2) :=
  ⟨⟨by decide, by decide, by decide⟩,
    c5_orphan_inner_dropped st5 _ (by decide) (by decide) (by decide)⟩

theorem mem_commonTags (ways : List OsmWay) (kv : String × String) :
    kv ∈ commonTags ways ↔
      kv ∈ (ways.map (·.tags)).flatten ∧
      (ways.map (·.tags)).flatten.count kv = ways.length := by
  unfold commonTags
  dsimp only
  rw [List.mem_filter, mem_insSort, List.mem_dedup]
  simp [beq_iff_eq]

/-- C6 (amended): the relation entry point's tag selection — if any relation
tag survives the six-key filter, the area's tags are the relation tags whose
key is not `type`; otherwise, with exactly one distinct outer way that way's
tags are copied verbatim; otherwise a key/value pair is emitted iff its total
occurrence count over the distinct outer ways' tag lists equals the number of
those ways (which coincides with "present on every outer way" only when no
way repeats a pair — see the counterexample). -/
theorem c6_relation_tag_selection (rel : OsmRelation) (outers : List Ring)
    (kv : String × String) :
    (filterRelTags rel.tags ≠ [] →
      (kv ∈ relAreaTags rel outers ↔ kv ∈ rel.tags ∧ kv.1 ≠ "type")) ∧
    (filterRelTags rel.tags = [] → ∀ w : OsmWay, outerWays rel outers = [w] →
      relAreaTags rel outers = w.tags) ∧
    (filterRelTags rel.tags = [] → (outerWays rel outers).length ≠ 1 →
      (kv ∈ relAreaTags rel outers ↔
        ((outerWays rel outers).map (·.tags)).flatten.count kv
          = (outerWays rel outers).length ∧
        0 < (outerWays rel outers).length)) := by
  refine ⟨?_, ?_, ?_⟩
  · intro hne
    unfold relAreaTags
    rw [if_pos (by simpa [List.isEmpty_iff] using hne)]
    rw [List.mem_filter]
    simp
  · intro he w hw
    unfold relAreaTags
    rw [if_neg (by simp [List.isEmpty_iff, he])]
    rw [hw]
  · intro he hlen
    unfold relAreaTags
    rw [if_neg (by simp [List.isEmpty_iff, he])]
    rcases hows : outerWays rel outers with _ | ⟨w, _ | ⟨w2, t⟩⟩
    · simp [commonTags, insSort]
    · rw [hows] at hlen
      simp at hlen
    · show kv ∈ commonTags (w :: w2 :: t) ↔ _
      rw [mem_commonTags]
      constructor
      · rintro ⟨_, hc⟩
        exact ⟨hc, by simp⟩
      · rintro ⟨hc, _⟩
        refine ⟨?_, hc⟩
        have hpos : 0 < ((w :: w2 :: t).map (·.tags)).flatten.count kv := by
          rw [hc]
          simp
        exact List.count_pos_iff.mp hpos

/-- C6 witness: the common-tag characterization applied to the duplicated-tag
relation. -/
theorem c6_witness :
    (filterRelTags rel6.tags = [] ∧ (outerWays rel6 outers6).length ≠ 1) ∧
    (("a", "b") ∈ relAreaTags rel6 outers6 ↔
      ((outerWays rel6 outers6).map (·.tags)).flatten.count ("a", "b")
        = (outerWays rel6 outers6).length ∧
      0 < (outerWays rel6 outers6).length) :=
  ⟨⟨by decide, by decide⟩,
    (c6_relation_tag_selection rel6 outers6 ("a", "b")).2.2 (by decide) (by decide)⟩

theorem take_eq_and_len_iff (f g : List (String × String)) :
    (f = g.take f.length ∧ f.length = g.length) ↔ f = g := by
  constructor
  · rintro ⟨h1, h2⟩
    rw [h2] at h1
    rw [List.take_length] at h1
    exact h1
  · rintro rfl
    exact ⟨by rw [List.take_length], rfl⟩

theorem assembleWay_buf (st : AsmState) (w : OsmWay) (buf : List Area) :
    ∃ a : Area, (assembleWay st w buf).2.1 = buf ++ [a] :=
  ⟨_, rfl⟩

theorem assembleWay_buf_len (st : AsmState) (w : OsmWay) (buf : List Area) :
    (assembleWay st w buf).2.1.length = buf.length + 1 := by
  obtain ⟨a, ha⟩ := assembleWay_buf st w buf
  rw [ha]
  simp

theorem secondPass_len (mism : Nat) (atags : List (String × String)) :
    ∀ (members : List OsmMember) (buf : List Area),
      (secondPass mism members atags buf).1.length =
        buf.length + members.countP (fun m => secondPassWay mism m.role m.way atags)
  | [], buf => by simp [secondPass]
  | m :: t, buf => by
    simp only [secondPass, List.countP_cons]
    cases hc : secondPassWay mism m.role m.way atags with
    | true =>
      simp only [hc, ite_true]
      rw [secondPass_len mism atags t _]
      rw [assembleWay_buf_len]
      omega
    | false =>
      simp only [hc, Bool.false_eq_true, ite_false]
      rw [secondPass_len mism atags t buf]
      omega

/-- C7 (amended): a relation member is recursively assembled as its own area
iff the mismatch counter is zero, its role is "inner", the way is closed and
carries tags, and its tags filtered by the five keys `created_by`, `source`,
`note`, `test:id`, `test:section` — the key `type` is NOT filtered here,
unlike the claim's phase-8 list — are nonempty and differ from the area's
equally filtered tags; each qualifying member adds exactly one further area
to the output buffer. -/
theorem c7_second_pass_condition :
    (∀ (mism : Nat) (role : String) (w : OsmWay) (atags : List (String × String)),
      secondPassWay mism role w atags = true ↔
        (mism = 0 ∧ role = "inner" ∧ endsHaveSameId w = true ∧ w.tags ≠ [] ∧
         filterInnerTags w.tags ≠ [] ∧ filterInnerTags w.tags ≠ filterInnerTags atags)) ∧
    (∀ (mism : Nat) (atags : List (String × String)) (members : List OsmMember)
        (buf : List Area),
      (secondPass mism members atags buf).1.length =
        buf.length + members.countP (fun m => secondPassWay mism m.role m.way atags)) := by
  constructor
  · intro mism role w atags
    unfold secondPassWay listIsPrefixOf
    dsimp only
    simp only [Bool.and_eq_true, beq_iff_eq, decide_eq_true_eq, Bool.or_eq_true,
      Bool.not_eq_true', decide_eq_false_iff_not, beq_eq_false_iff_ne, ne_eq,
      List.length_pos]
    have hiff : ((¬ filterInnerTags w.tags
          = (filterInnerTags atags).take (filterInnerTags w.tags).length) ∨
        ¬ (filterInnerTags w.tags).length = (filterInnerTags atags).length) ↔
        ¬ filterInnerTags w.tags = filterInnerTags atags := by
      rw [← take_eq_and_len_iff (filterInnerTags w.tags) (filterInnerTags atags)]
      tauto
    rw [hiff]
    tauto
  · intro mism atags members buf
    exact secondPass_len mism atags members buf

theorem mmZeroFirst_length (val : Int) :
    ∀ l : List MElem, (mmZeroFirst val l).length = l.length
  | [] => rfl
  | e :: t => by
    unfold mmZeroFirst
    split <;> simp [mmZeroFirst_length val t]

theorem mmRemove_length (v : List MElem) (id val : Int) :
    (mmRemove v id val).length = v.length := by
  have h1 : (v.takeWhile (fun e => decide (e.1 < id))).length +
      (v.dropWhile (fun e => decide (e.1 < id))).length = v.length := by
    rw [← List.length_append, List.takeWhile_append_dropWhile]
  have h2 : ((v.dropWhile (fun e => decide (e.1 < id))).takeWhile
        (fun e => !decide (id < e.1))).length +
      ((v.dropWhile (fun e => decide (e.1 < id))).dropWhile
        (fun e => !decide (id < e.1))).length
      = (v.dropWhile (fun e => decide (e.1 < id))).length := by
    rw [← List.length_append, List.takeWhile_append_dropWhile]
  simp only [mmRemove, mmSplit, List.length_append, mmZeroFirst_length]
  omega

theorem mmReplaceFirst_of_ne (id val : Int) :
    ∀ v : List MElem, (∀ e ∈ v, e.1 ≠ id) → mmReplaceFirst v id val = v
  | [], _ => rfl
  | e :: t, h => by
    simp only [mmReplaceFirst]
    rw [if_neg (by
      simp only [Bool.and_eq_true, beq_iff_eq]
      rintro ⟨h1, _⟩
      exact h e (List.mem_cons_self e t) h1)]
    rw [mmReplaceFirst_of_ne id val t (fun x hx => h x (List.mem_cons_of_mem _ hx))]

theorem mmRemove_eq_replaceFirst (id val : Int) :
    ∀ v : List MElem, v.Pairwise (fun a b : MElem => a.1 ≤ b.1) →
      mmRemove v id val = mmReplaceFirst v id val
  | [], _ => rfl
  | e :: t, hp => by
    have he := (List.pairwise_cons.mp hp).1
    have ht := (List.pairwise_cons.mp hp).2
    by_cases hlt : e.1 < id
    · have hstep : mmRemove (e :: t) id val = e :: mmRemove t id val := by
        simp [mmRemove, mmSplit, List.takeWhile_cons, List.dropWhile_cons, hlt]
      rw [hstep, mmRemove_eq_replaceFirst id val t ht]
      simp only [mmReplaceFirst]
      rw [if_neg (by
        simp only [Bool.and_eq_true, beq_iff_eq]
        rintro ⟨h1, _⟩
        omega)]
    · by_cases hgt : id < e.1
      · have hstep : mmRemove (e :: t) id val = e :: t := by
          simp [mmRemove, mmSplit, List.takeWhile_cons, List.dropWhile_cons, hlt, hgt,
            mmZeroFirst]
        rw [hstep, mmReplaceFirst_of_ne id val (e :: t) (by
          intro x hx
          rcases List.mem_cons.mp hx with hx | hx
          · rw [hx]; omega
          · have := he x hx; omega)]
      · have heq : e.1 = id := by omega
        have htpre : t.takeWhile (fun x : MElem => decide (x.1 < id)) = [] := by
          cases t with
          | nil => rfl
          | cons x t2 =>
            have := he x (List.mem_cons_self x t2)
            simp [List.takeWhile_cons]
            omega
        have htdrop : t.dropWhile (fun x : MElem => decide (x.1 < id)) = t := by
          cases t with
          | nil => rfl
          | cons x t2 =>
            have := he x (List.mem_cons_self x t2)
            simp [List.dropWhile_cons]
            omega
        have hsplit : mmRemove (e :: t) id val =
            mmZeroFirst val (e :: t.takeWhile (fun x => !decide (id < x.1))) ++
              t.dropWhile (fun x => !decide (id < x.1)) := by
          simp [mmRemove, mmSplit, List.takeWhile_cons, List.dropWhile_cons, hlt, hgt]
        by_cases hv : e.2 = val
        · rw [hsplit]
          simp only [mmZeroFirst]
          rw [if_pos (by simp [hv])]
          simp only [mmReplaceFirst]
          rw [if_pos (by simp [heq, hv])]
          rw [List.cons_append, List.takeWhile_append_dropWhile]
        · rw [hsplit]
          simp only [mmZeroFirst]
          rw [if_neg (by simp [hv])]
          simp only [mmReplaceFirst]
          rw [if_neg (by
            simp only [Bool.and_eq_true, beq_iff_eq]
            rintro ⟨_, h2⟩
            exact hv h2)]
          rw [List.cons_append, List.cons.injEq]
          refine ⟨rfl, ?_⟩
          have hIH := mmRemove_eq_replaceFirst id val t ht
          rw [← hIH]
          simp [mmRemove, mmSplit, htpre, htdrop]

theorem mmEraseRemoved_mem (empty : Int) (v : List MElem) (x : MElem) :
    x ∈ mmEraseRemoved empty v ↔ x ∈ v ∧ x.2 ≠ empty := by
  simp [mmEraseRemoved, mmIsRemoved, List.mem_filter]

/-- C9: on an id-sorted vector, `remove(id, value)` overwrites the value of
the first stored element matching both id and value with the hard-coded
sentinel zero (`mmReplaceFirst` is exactly that single-overwrite), leaves the
size unchanged, and `erase_removed` erases exactly the elements whose value
equals `empty_value` — the elements kept are those whose value differs from
it. -/
theorem c9_multimap_remove (empty id val : Int) (v : List MElem)
    (hs : v.Pairwise (fun a b : MElem => a.1 ≤ b.1)) :
    mmRemove v id val = mmReplaceFirst v id val ∧
    (mmRemove v id val).length = v.length ∧
    (∀ x : MElem, x ∈ mmEraseRemoved empty v ↔ x ∈ v ∧ x.2 ≠ empty) :=
  ⟨mmRemove_eq_replaceFirst id val v hs, mmRemove_length v id val,
    fun x => mmEraseRemoved_mem empty v x⟩

/-- C9 witness: the statement applied to a concrete sorted vector with a
duplicate id. -/
theorem c9_witness :
    ([((1 : Int), (5 : Int)), (2, 7), (2, 9), (3, 4)] : List MElem).Pairwise
      (fun a b : MElem => a.1 ≤ b.1) ∧
    (mmRemove [((1 : Int), (5 : Int)), (2, 7), (2, 9), (3, 4)] 2 9
      = mmReplaceFirst [((1 : Int), (5 : Int)), (2, 7), (2, 9), (3, 4)] 2 9 ∧
    (mmRemove [((1 : Int), (5 : Int)), (2, 7), (2, 9), (3, 4)] 2 9).length
      = ([((1 : Int), (5 : Int)), (2, 7), (2, 9), (3, 4)] : List MElem).length ∧
    (∀ x : MElem, x ∈ mmEraseRemoved 0 [((1 : Int), (5 : Int)), (2, 7), (2, 9), (3, 4)]
      ↔ x ∈ ([((1 : Int), (5 : Int)), (2, 7), (2, 9), (3, 4)] : List MElem) ∧ x.2 ≠ 0)) :=
  ⟨by decide, c9_multimap_remove 0 2 9 _ (by decide)⟩

theorem secondPass_append (mism : Nat) (atags : List (String × String)) :
    ∀ (members : List OsmMember) (buf : List Area),
      ∃ ext : List Area, (secondPass mism members atags buf).1 = buf ++ ext
  | [], buf => ⟨[], by simp [secondPass]⟩
  | m :: t, buf => by
    simp only [secondPass]
    cases hc : secondPassWay mism m.role m.way atags with
    | true =>
      simp only [hc, ite_true]
      obtain ⟨a, ha⟩ := assembleWay_buf initState m.way buf
      obtain ⟨ext, hext⟩ := secondPass_append mism atags t (assembleWay initState m.way buf).2.1
      exact ⟨[a] ++ ext, by rw [hext, ha, List.append_assoc]⟩
    | false =>
      simp only [hc, Bool.false_eq_true, ite_false]
      exact secondPass_append mism atags t buf

/-- C1 (amended): for both entry points, `create_rings` returns false exactly
when normalization finds a proper crossing or collinear overlap, or some ring
is still open after stitching; on such an abort no rings and no tags are
emitted — but an area entity carrying only the object's attributes is still
committed to the output buffer (the way entry appends it, the relation entry
commits it at the buffer position it reserved). -/
theorem c1_abort_empty_area :
    (∀ st : AsmState, ((createRings st).assigned = none ↔
      ((findIntersections (normalizeSegs st.segs)).1 = true ∨
       (checkOpenRings (stitchAll (normalizeSegs st.segs) st.rings).1).1 = true))) ∧
    (∀ (st : AsmState) (w : OsmWay) (buf : List Area),
      (createRings { st with segs := st.segs ++ waySegments w "outer" }).assigned = none →
      (assembleWay st w buf).2.1 =
        buf ++ [{ aid := 2 * w.id, meta := w.meta, tags := [], rings := [] }]) ∧
    (∀ (st : AsmState) (rel : OsmRelation) (buf : List Area),
      (createRings { st with
        segs := st.segs ++ (rel.members.map (fun m => waySegments m.way m.role)).flatten
        }).assigned = none →
      (assembleRelation st rel buf).2.1[buf.length]? =
        some { aid := 2 * rel.id + 1, meta := rel.meta, tags := [], rings := [] }) := by
  refine ⟨?_, ?_, ?_⟩
  · intro st
    cases hfi : (findIntersections (normalizeSegs st.segs)).1 with
    | true => simp [createRings, hfi]
    | false =>
      cases hop : (checkOpenRings (stitchAll (normalizeSegs st.segs) st.rings).1).1 with
      | true => simp [createRings, hfi, hop]
      | false =>
        cases hlen : (stitchAll (normalizeSegs st.segs) st.rings).1.length == 1 with
        | true => simp [createRings, hfi, hop, hlen]
        | false => simp [createRings, hfi, hop, hlen]
  · intro st w buf h
    simp only [assembleWay, h]
  · intro st rel buf h
    simp only [assembleRelation, h]
    obtain ⟨ext, hext⟩ := secondPass_append
      (createRings { st with
        segs := st.segs ++ (rel.members.map (fun m => waySegments m.way m.role)).flatten
        }).state.mismatches ([] : List (String × String)) rel.members
      (buf ++ [{ aid := 2 * rel.id + 1, meta := rel.meta, tags := [], rings := [] }])
    rw [hext]
    rw [List.append_assoc]
    rw [List.getElem?_append_right (Nat.le_refl buf.length)]
    simp

/-- C1 witness: the abort-path conclusions instantiated at the open-ring way
and at the relation whose chain stays open. -/
theorem c1_witness :
    ((assembleWay initState openWay []).2.1 =
      [] ++ [{ aid := 2 * openWay.id, meta := openWay.meta, tags := [], rings := [] }]) ∧
    ((assembleRelation initState rel10 []).2.1[([] : List Area).length]? =
      some { aid := 2 * rel10.id + 1, meta := rel10.meta, tags := [], rings := [] }) :=
  ⟨c1_abort_empty_area.2.1 initState openWay [] (by decide),
   c1_abort_empty_area.2.2 initState rel10 [] (by decide)⟩

end Osm
